import Mathlib

/-!
Verification of the dependency classification pipeline of
`open-org-license-scanner` (src/index.ts), via a shallow embedding in Lean.

JavaScript `Map` objects are modelled as insertion-ordered association lists
(`List (String × ν)`): `Map.set` on a fresh key appends at the end, `Map.set`
on an existing key updates the value in place, `Map.get` is `alookup`.
JavaScript values of type `string | undefined` are modelled as `Option String`;
JS truthiness of such a value (used by the source in several guards) is
`truthy`: `undefined` and the empty string are falsy.
-/

namespace OrgLicenseScanner

/-! ### JS `Map` as an insertion-ordered association list -/

/-- `Map.get`: the value stored at key `k`, if any. -/
def alookup {ν : Type _} (m : List (String × ν)) (k : String) : Option ν :=
  match m with
  | [] => none
  | (k2, v) :: rest => if k2 = k then some v else alookup rest k

/-- Eager `Option` alternative, used to state lookup lemmas. -/
def oOr {α : Type _} (a b : Option α) : Option α :=
  match a with
  | some v => some v
  | none => b

/-- Get-or-create-then-update at key `k`: if `k` is present its value is
updated in place (JS `Map.set` keeps the key's position), otherwise the key is
appended at the end with value `f d` (JS `Map.set` appends fresh keys). This is
the net effect of the source's check-then-`set`-then-mutate sequences. -/
def upsert {ν : Type _} (k : String) (d : ν) (f : ν → ν) : List (String × ν) → List (String × ν)
  | [] => [(k, f d)]
  | (k2, v) :: rest => if k2 = k then (k2, f v) :: rest else (k2, v) :: upsert k d f rest

/-- Threading a list of items through `upsert`, the shape shared by all three
levels of the aggregation store. -/
def buildAL {τ ν : Type _} (key : τ → String) (d : ν) (step : τ → ν → ν)
    (l : List τ) : List (String × ν) :=
  l.foldl (fun m t => upsert (key t) d (step t) m) []

/-- JS truthiness of a `string | undefined` value. -/
def truthy : Option String → Bool
  | some s => s != ""
  | none => false

/-! ### SBOM data model (input shapes of the per-repository processor) -/

/-- A relationship edge of the dependency-graph document:
`{spdxElementId?, relatedSpdxElement?}`. -/
structure SbomRelationship where
  spdxElementId : Option String
  relatedSpdxElement : Option String
deriving DecidableEq

/-- A package node of the dependency-graph document:
`{SPDXID?, name?, versionInfo?, licenseConcluded?}`. -/
structure SbomPackage where
  SPDXID : Option String
  name : Option String
  versionInfo : Option String
  licenseConcluded : Option String
deriving DecidableEq

/-! ### Relationship Resolver, step [5b] -/

/-- One step of the `relationships.reduce` that builds the relationship map:
`if (spdxElementId && relatedSpdxElement && !map.has(spdxElementId))
   map.set(spdxElementId, relatedSpdxElement)`. -/
def relMapStep (map : List (String × String)) (rel : SbomRelationship) :
    List (String × String) :=
  match rel.spdxElementId, rel.relatedSpdxElement with
  | some s, some t =>
      if s ≠ "" ∧ t ≠ "" ∧ (alookup map s).isNone then map ++ [(s, t)] else map
  | _, _ => map

/-- The relationship map for one repository, built by folding over the edges
in input order starting from an empty map. -/
def buildRelationshipMap (rels : List SbomRelationship) : List (String × String) :=
  rels.foldl relMapStep []

/-- Stated from the claim wording, to be compared with `buildRelationshipMap`:
the target of the first edge in input order whose source and target ids are
both present (JS-truthy, i.e. defined and non-empty) and whose source id is
`src`. -/
def firstEdgeTarget : List SbomRelationship → String → Option String
  | [], _ => none
  | rel :: rest, src =>
    match rel.spdxElementId, rel.relatedSpdxElement with
    | some s, some t =>
        if s ≠ "" ∧ t ≠ "" ∧ s = src then some t else firstEdgeTarget rest src
    | _, _ => firstEdgeTarget rest src

/-- `relationshipMap.get(SPDXID ?? "") !== mainSpdxId`: a missing entry
(`none`) never equals `some mainSpdxId`. -/
def isTransitiveDep (relMap : List (String × String)) (mainSpdxId : String)
    (spdxId : Option String) : Bool :=
  alookup relMap (spdxId.getD "") != some mainSpdxId

/-! ### License Resolver -/

/-- The metadata returned by a successful `packageJson` call; its `license`
field may be absent (`undefined`), despite the source's cast to `string`. -/
structure NpmMetadata where
  license : Option String
deriving DecidableEq

/-- The external package metadata source: `packageJson(name, {version})`,
keyed by name and optional version. `none` models a rejected lookup
(package or version not found, network error). -/
def NpmSource : Type := String → Option String → Option NpmMetadata

/-- The value produced by the license resolution of one package. -/
structure ResolveOutcome where
  resolveMode : String
  license : Option String
deriving DecidableEq

/-- `resolveLicenseFromNPM`: query the source with the version; on rejection
retry without a version; on a second rejection return the failure sentinel. -/
def resolveLicenseFromNPM (npm : NpmSource) (pkgName : String)
    (version : Option String) : ResolveOutcome :=
  match npm pkgName version with
  | some meta => { resolveMode := "npmCurrVer", license := meta.license }
  | none =>
    match npm pkgName none with
    | some meta => { resolveMode := "npmLatestVer", license := meta.license }
    | none => { resolveMode := "failed", license := some "non-NPM" }

/-- The external queries `resolveLicenseFromNPM` performs, in order: the
version-scoped query always runs first, and the unscoped query runs exactly
when the first was rejected. -/
def npmCallsOf (npm : NpmSource) (pkgName : String)
    (version : Option String) : List (String × Option String) :=
  match npm pkgName version with
  | some _ => [(pkgName, version)]
  | none => [(pkgName, version), (pkgName, none)]

/-- A resolved package record as assembled in step [5c]. The TS interface
declares `license: string`, but the value that actually flows in may be
`undefined` (an NPM response without a license field), hence `Option String`;
`name` and `version` are `string` there via casts, modelled by `getD ""`. -/
structure PackageData where
  name : String
  isTransitiveDep : Bool
  version : String
  resolveMode : String
  license : Option String
deriving DecidableEq

/-- Step [5c] license choice for one dependency:
`licenseConcluded ? {explicit} : await resolveLicenseFromNPM(name, version)`.
The guard is JS truthiness, so only a defined, non-empty `licenseConcluded`
avoids the external lookup. -/
def resolveOutcomeFor (npm : NpmSource) (dep : SbomPackage) : ResolveOutcome :=
  if truthy dep.licenseConcluded then
    { resolveMode := "explicit", license := dep.licenseConcluded }
  else resolveLicenseFromNPM npm (dep.name.getD "") dep.versionInfo

/-- The external calls made while resolving one dependency: none at all when
the explicit license is taken. -/
def externalCallsFor (npm : NpmSource) (dep : SbomPackage) :
    List (String × Option String) :=
  if truthy dep.licenseConcluded then []
  else npmCallsOf npm (dep.name.getD "") dep.versionInfo

/-- The full step [5c] record for one dependency. -/
def resolveDep (npm : NpmSource) (relMap : List (String × String))
    (mainSpdxId : String) (dep : SbomPackage) : PackageData :=
  let outcome := resolveOutcomeFor npm dep
  { name := dep.name.getD ""
    isTransitiveDep := isTransitiveDep relMap mainSpdxId dep.SPDXID
    version := dep.versionInfo.getD ""
    resolveMode := outcome.resolveMode
    license := outcome.license }

/-! ### Per-repository deduplication, step [5c] -/

/-- One step of the `deps.reduce` that deduplicates dependencies:
`if (current.name && !state.uniqueDepNames.has(current.name))` add the name to
the seen set and push the node. The guard is JS truthiness, so only defined,
non-empty names are retained; the `Set` is modelled as a list with membership. -/
def uniqueStep (state : List String × List SbomPackage) (current : SbomPackage) :
    List String × List SbomPackage :=
  match current.name with
  | some n => if n ≠ "" ∧ n ∉ state.1 then (state.1 ++ [n], state.2 ++ [current]) else state
  | none => state

/-- The deduplicated dependency list, in arrival order. License resolution is
then mapped over this list, so it runs exactly once per retained node. -/
def uniqueDeps (deps : List SbomPackage) : List SbomPackage :=
  (deps.foldl uniqueStep ([], [])).2

/-! ### Aggregation store -/

/-- The innermost record pushed into the store:
`{repo, resolveMode, isTransitiveDep}`. -/
structure MappedPackageData where
  repo : String
  resolveMode : String
  isTransitiveDep : Bool
deriving DecidableEq

/-- A package at the moment it is inserted into a store: in both insertion
branches of step [5d] its license is a known string. -/
structure StorePackage where
  name : String
  isTransitiveDep : Bool
  version : String
  resolveMode : String
  license : String
deriving DecidableEq

abbrev VersionMap : Type := List (String × List MappedPackageData)
abbrev LicenseMap : Type := List (String × VersionMap)
abbrev PackageDataMap : Type := List (String × LicenseMap)

instance : DecidableEq VersionMap :=
  inferInstanceAs (DecidableEq (List (String × List MappedPackageData)))

instance : DecidableEq LicenseMap :=
  inferInstanceAs (DecidableEq (List (String × VersionMap)))

instance : DecidableEq PackageDataMap :=
  inferInstanceAs (DecidableEq (List (String × LicenseMap)))

/-- The innermost record for an insertion of `pkg` coming from `repo`. -/
def entryOf (t : String × StorePackage) : MappedPackageData :=
  { repo := t.1, resolveMode := t.2.resolveMode, isTransitiveDep := t.2.isTransitiveDep }

/-- `insertPkgIntoMap(repo, pkg, map)`: lazily create the
name → license → version chain, then push `{repo, resolveMode,
isTransitiveDep}` onto the innermost list. -/
def insertPkgIntoMap (repo : String) (pkg : StorePackage) (map : PackageDataMap) :
    PackageDataMap :=
  upsert pkg.name []
    (upsert pkg.license []
      (upsert pkg.version []
        (fun entries => entries ++ [entryOf (repo, pkg)])))
    map

/-- Inserting a list of `(repo, package)` tuples in order, starting from the
empty store. -/
def buildMap (l : List (String × StorePackage)) : PackageDataMap :=
  l.foldl (fun m t => insertPkgIntoMap t.1 t.2 m) []

/-- The three per-level actions of `insertPkgIntoMap`, named so that each
store level is an instance of `buildAL`. -/
def pushEntry (t : String × StorePackage) (entries : List MappedPackageData) :
    List MappedPackageData :=
  entries ++ [entryOf t]

def insVersion (t : String × StorePackage) (vm : VersionMap) : VersionMap :=
  upsert t.2.version [] (pushEntry t) vm

def insLicense (t : String × StorePackage) (lm : LicenseMap) : LicenseMap :=
  upsert t.2.license [] (insVersion t) lm

/-- The `(name, license, version, repo)` combination of an insertion tuple. -/
def quadOf (t : String × StorePackage) : String × String × String × String :=
  (t.2.name, t.2.license, t.2.version, t.1)

/-- The innermost list stored under the path name → license → version, i.e.
`map.get(nm)?.get(lic)?.get(ver) ?? []` (empty when the path is absent). -/
def entriesAt (map : PackageDataMap) (nm lic ver : String) : List MappedPackageData :=
  (alookup ((alookup ((alookup map nm).getD []) lic).getD []) ver).getD []

/-! Serialized, sorted form of a store (`arraifyMap`). JS
`Array.from(map, f)` maps entries in insertion order and `.sort` with a
`localeCompare` comparator is modelled by the stable `List.insertionSort`
on the string order. -/

structure VersionGroup where
  version : String
  repos : List MappedPackageData
deriving DecidableEq

structure LicenseGroup where
  license : String
  versions : List VersionGroup
deriving DecidableEq

structure NameGroup where
  name : String
  licenses : List LicenseGroup
deriving DecidableEq

instance : DecidableRel (fun a b : MappedPackageData => a.repo ≤ b.repo) :=
  fun a b => inferInstanceAs (Decidable (a.repo ≤ b.repo))

instance : DecidableRel (fun a b : VersionGroup => a.version ≤ b.version) :=
  fun a b => inferInstanceAs (Decidable (a.version ≤ b.version))

instance : DecidableRel (fun a b : LicenseGroup => a.license ≤ b.license) :=
  fun a b => inferInstanceAs (Decidable (a.license ≤ b.license))

instance : DecidableRel (fun a b : NameGroup => a.name ≤ b.name) :=
  fun a b => inferInstanceAs (Decidable (a.name ≤ b.name))

/-- Serialize the innermost list: sort by repository name. -/
def arraifyVersion (k : String) (entries : List MappedPackageData) : VersionGroup :=
  { version := k
    repos := List.insertionSort (fun a b : MappedPackageData => a.repo ≤ b.repo) entries }

/-- Serialize one license's versions map: sort versions lexicographically. -/
def arraifyLicense (k : String) (vm : VersionMap) : LicenseGroup :=
  { license := k
    versions := List.insertionSort (fun a b : VersionGroup => a.version ≤ b.version)
      (vm.map (fun kv => arraifyVersion kv.1 kv.2)) }

/-- Serialize one name's licenses map: sort licenses lexicographically. -/
def arraifyName (k : String) (lm : LicenseMap) : NameGroup :=
  { name := k
    licenses := List.insertionSort (fun a b : LicenseGroup => a.license ≤ b.license)
      (lm.map (fun kv => arraifyLicense kv.1 kv.2)) }

/-- `arraifyMap`: the fully sorted array form of a store. -/
def arraifyMap (map : PackageDataMap) : List NameGroup :=
  List.insertionSort (fun a b : NameGroup => a.name ≤ b.name)
    (map.map (fun kv => arraifyName kv.1 kv.2))

/-! ### Configuration and classification, step [5d] -/

/-- The run configuration: the license blacklist and the compiled
ignore-regexes, each regex modelled by its `test` function. -/
structure ScannerConfig where
  licenseBlacklist : List String
  ignoreRegexes : List (String → Bool)

/-- `ignoreRegexes.some((regExp) => regExp.test(pkg.name))`. -/
def ignoredByRegex (cfg : ScannerConfig) (pkg : PackageData) : Bool :=
  cfg.ignoreRegexes.any (fun test => test pkg.name)

/-- The store view of a classified package whose license string is `lic`. -/
def storePkg (pkg : PackageData) (lic : String) : StorePackage :=
  { name := pkg.name, isTransitiveDep := pkg.isTransitiveDep, version := pkg.version
    resolveMode := pkg.resolveMode, license := lic }

/-- One package's classification in step [5d], acting on
`(blacklistMap, noLicenseMap, affected)`:
`if (pkg.license === "Unknown") insert into noLicenseMap; else if
(licenseBlacklist.includes(pkg.license)) insert into blacklistMap`.
A package whose resolved license is `undefined` (`none`) fails both tests:
it is neither the string `"Unknown"` nor a member of a list of strings. -/
def classifyStep (cfg : ScannerConfig) (repo : String) (pkg : PackageData)
    (acc : PackageDataMap × PackageDataMap × Bool) :
    PackageDataMap × PackageDataMap × Bool :=
  match pkg.license with
  | some lic =>
      if lic = "Unknown" then
        (acc.1, insertPkgIntoMap repo (storePkg pkg lic) acc.2.1, true)
      else if lic ∈ cfg.licenseBlacklist then
        (insertPkgIntoMap repo (storePkg pkg lic) acc.1, acc.2.1, true)
      else acc
  | none => acc

/-- Step [5d] for one repository's resolved package list: drop every package
matched by some ignore regex, then classify the rest in order. -/
def classifyPackages (cfg : ScannerConfig) (repo : String)
    (packages : List PackageData) (acc : PackageDataMap × PackageDataMap × Bool) :
    PackageDataMap × PackageDataMap × Bool :=
  (packages.filter (fun pkg => !ignoredByRegex cfg pkg)).foldl
    (fun acc pkg => classifyStep cfg repo pkg acc) acc

/-! ### Bounded concurrency scheduler, step [5] -/

/-- How processing one repository ends: the SBOM fetch is rejected and caught
(`[5a]`'s catch), an unexpected error is caught mid-processing (the second
catch), or a full resolved package list is produced. Both failure outcomes
yield `undefined` in place of a result, so no partial package list exists. -/
inductive RepoOutcome where
  | fetchFailure : RepoOutcome
  | processingFailure : RepoOutcome
  | success : List PackageData → RepoOutcome
deriving DecidableEq

def isSuccessOutcome : RepoOutcome → Bool
  | .success _ => true
  | _ => false

/-- The module-level mutable state touched by the scheduler's units of work. -/
structure ScanState where
  nScanned : Nat
  nFailed : Nat
  nAffected : Nat
  blacklistMap : PackageDataMap
  noLicenseMap : PackageDataMap
deriving DecidableEq

/-- One unit of work: both catches increment `nFailed` and leave `undefined`,
the success path increments `nScanned` and runs step [5d], bumping
`nAffected` when some package landed in a store. -/
def processRepo (cfg : ScannerConfig) (repoName : String) (outcome : RepoOutcome)
    (st : ScanState) : ScanState :=
  match outcome with
  | .fetchFailure => { st with nFailed := st.nFailed + 1 }
  | .processingFailure => { st with nFailed := st.nFailed + 1 }
  | .success packages =>
      let st1 := { st with nScanned := st.nScanned + 1 }
      let out := classifyPackages cfg repoName packages
        (st1.blacklistMap, st1.noLicenseMap, false)
      { st1 with
        blacklistMap := out.1
        noLicenseMap := out.2.1
        nAffected := if out.2.2 then st1.nAffected + 1 else st1.nAffected }

/-- Every submitted unit of work settles: the batch is a list of
`(repository name, outcome)` jobs, processed to completion. -/
def runBatch (cfg : ScannerConfig) (batch : List (String × RepoOutcome))
    (st : ScanState) : ScanState :=
  batch.foldl (fun st job => processRepo cfg job.1 job.2 st) st

/-- All repository names occurring in the innermost lists of a store. -/
def reposOfEntries (entries : List MappedPackageData) : List String :=
  entries.map (fun e => e.repo)

def reposOfVersionMap (vm : VersionMap) : List String :=
  vm.foldr (fun kv acc => reposOfEntries kv.2 ++ acc) []

def reposOfLicenseMap (lm : LicenseMap) : List String :=
  lm.foldr (fun kv acc => reposOfVersionMap kv.2 ++ acc) []

def reposInMap (m : PackageDataMap) : List String :=
  m.foldr (fun kv acc => reposOfLicenseMap kv.2 ++ acc) []

end OrgLicenseScanner

namespace OrgLicenseScanner

theorem oOr_none_right {α : Type _} (a : Option α) : oOr a none = a := by
  cases a <;> rfl

theorem alookup_append {ν : Type _} (m1 m2 : List (String × ν)) (k : String) :
    alookup (m1 ++ m2) k = oOr (alookup m1 k) (alookup m2 k) := by
  induction m1 with
  | nil => simp [alookup, oOr]
  | cons kv rest ih =>
    obtain ⟨k2, v⟩ := kv
    by_cases h : k2 = k <;> simp [alookup, h, ih, oOr]

/-- Lookup after folding `relMapStep` from an arbitrary accumulator: the
accumulator wins, otherwise the first valid matching edge wins. -/
theorem alookup_foldl_relMapStep (rels : List SbomRelationship) :
    ∀ (m : List (String × String)) (src : String),
      alookup (rels.foldl relMapStep m) src
        = oOr (alookup m src) (firstEdgeTarget rels src) := by
  induction rels with
  | nil =>
    intro m src
    simp [firstEdgeTarget, oOr_none_right]
  | cons rel rest ih =>
    intro m src
    rw [List.foldl_cons, ih]
    obtain ⟨sid, tid⟩ := rel
    match sid, tid with
    | none, none => rfl
    | none, some t => rfl
    | some s, none => rfl
    | some s, some t =>
      show oOr (alookup (relMapStep m ⟨some s, some t⟩) src) (firstEdgeTarget rest src) = _
      by_cases hv : s ≠ "" ∧ t ≠ ""
      · by_cases hs : s = src
        · subst hs
          cases hm : alookup m s with
          | some w =>
            simp [relMapStep, firstEdgeTarget, hv.1, hv.2, hm, oOr]
          | none =>
            simp [relMapStep, firstEdgeTarget, hv.1, hv.2, hm, alookup_append, alookup, oOr]
        · cases hm : alookup m s with
          | some w =>
            simp [relMapStep, firstEdgeTarget, hv.1, hv.2, hs, hm, oOr]
          | none =>
            simp [relMapStep, firstEdgeTarget, hv.1, hv.2, hs, hm, alookup_append, alookup,
              oOr_none_right]
      · rw [Decidable.not_and_iff_or_not] at hv
        rcases hv with hv | hv
        · simp only [ne_eq, Decidable.not_not] at hv
          subst hv
          simp [relMapStep, firstEdgeTarget]
        · simp only [ne_eq, Decidable.not_not] at hv
          subst hv
          simp [relMapStep, firstEdgeTarget]

/-- Claim C5: for every list of relationship edges and every source id, the
relationship map sends the source id to the target of the first edge in input
order whose source and target ids are both present (truthy); later edges with
the same source id never override it, and edges lacking either id are excluded. -/
theorem relationshipMap_first_edge_wins (rels : List SbomRelationship) (src : String) :
    alookup (buildRelationshipMap rels) src = firstEdgeTarget rels src := by
  have h := alookup_foldl_relMapStep rels [] src
  simpa [buildRelationshipMap, alookup, oOr] using h

/-- Claim C4: a dependency whose element id has no entry in the relationship
map is classified transitive, whatever the root element id is. -/
theorem missing_relationship_entry_is_transitive (rels : List SbomRelationship)
    (mainSpdxId : String) (spdxId : Option String)
    (h : alookup (buildRelationshipMap rels) (spdxId.getD "") = none) :
    isTransitiveDep (buildRelationshipMap rels) mainSpdxId spdxId = true := by
  simp [isTransitiveDep, h]

theorem missing_relationship_entry_is_transitive_witness :
    alookup (buildRelationshipMap [⟨some "SPDXRef-a", some "SPDXRef-b"⟩])
        ((some "SPDXRef-x").getD "") = none ∧
      isTransitiveDep (buildRelationshipMap [⟨some "SPDXRef-a", some "SPDXRef-b"⟩])
        "SPDXRef-main" (some "SPDXRef-x") = true :=
  ⟨by decide,
    missing_relationship_entry_is_transitive [⟨some "SPDXRef-a", some "SPDXRef-b"⟩]
      "SPDXRef-main" (some "SPDXRef-x") (by decide)⟩

/-- Claim C3: license resolution tries explicit, then the version-scoped
lookup (mode `npmCurrVer`), then the unscoped lookup (mode `npmLatestVer`),
then the failure sentinel (`non-NPM` / `failed`); each later stage runs only
when the earlier one did not succeed, and no external call at all is made
when an explicit (truthy) license is on the node. -/
theorem license_resolution_fallback_order (npm : NpmSource) (dep : SbomPackage) :
    (truthy dep.licenseConcluded = true →
      resolveOutcomeFor npm dep
          = { resolveMode := "explicit", license := dep.licenseConcluded } ∧
        externalCallsFor npm dep = []) ∧
    (truthy dep.licenseConcluded = false →
      ∀ meta, npm (dep.name.getD "") dep.versionInfo = some meta →
        resolveOutcomeFor npm dep
            = { resolveMode := "npmCurrVer", license := meta.license } ∧
          externalCallsFor npm dep = [(dep.name.getD "", dep.versionInfo)]) ∧
    (truthy dep.licenseConcluded = false →
      npm (dep.name.getD "") dep.versionInfo = none →
      ∀ meta, npm (dep.name.getD "") none = some meta →
        resolveOutcomeFor npm dep
            = { resolveMode := "npmLatestVer", license := meta.license } ∧
          externalCallsFor npm dep
            = [(dep.name.getD "", dep.versionInfo), (dep.name.getD "", none)]) ∧
    (truthy dep.licenseConcluded = false →
      npm (dep.name.getD "") dep.versionInfo = none →
      npm (dep.name.getD "") none = none →
        resolveOutcomeFor npm dep
          = { resolveMode := "failed", license := some "non-NPM" }) := by
  refine ⟨fun h1 => ⟨?_, ?_⟩, fun h1 meta h2 => ⟨?_, ?_⟩, fun h1 h2 meta h3 => ⟨?_, ?_⟩,
    fun h1 h2 h3 => ?_⟩ <;>
    simp [resolveOutcomeFor, externalCallsFor, resolveLicenseFromNPM, npmCallsOf,
      h1, *]

theorem license_resolution_fallback_order_witness :
    resolveOutcomeFor (fun _ _ => none)
        { SPDXID := none, name := some "leftpad", versionInfo := some "1.0.0",
          licenseConcluded := none }
      = { resolveMode := "failed", license := some "non-NPM" } :=
  (license_resolution_fallback_order (fun _ _ => none)
      { SPDXID := none, name := some "leftpad", versionInfo := some "1.0.0",
        licenseConcluded := none }).2.2.2 rfl rfl rfl

/-- Lookup after folding the dedupe step, relative to an arbitrary starting
state: the retained nodes named `n` are the already-retained ones, plus the
first arriving node named `n` if `n` was not yet seen. -/
theorem uniqueDeps_filter_aux (n : String) (hn : n ≠ "")
    (deps : List SbomPackage) :
    ∀ (seen : List String) (acc : List SbomPackage),
      ((deps.foldl uniqueStep (seen, acc)).2).filter (fun d => d.name == some n)
        = acc.filter (fun d => d.name == some n)
            ++ (if n ∈ seen then []
                else (deps.find? (fun d => d.name == some n)).toList) := by
  induction deps with
  | nil =>
    intro seen acc
    by_cases h : n ∈ seen <;> simp [h]
  | cons d rest ih =>
    intro seen acc
    rw [List.foldl_cons]
    match hdn : d.name with
    | none =>
      have hstep : uniqueStep (seen, acc) d = (seen, acc) := by
        simp [uniqueStep, hdn]
      have hfc : List.find? (fun d => d.name == some n) (d :: rest)
          = List.find? (fun d => d.name == some n) rest :=
        List.find?_cons_of_neg _ (by simp [hdn])
      rw [hstep, ih, hfc]
    | some m =>
      by_cases hmn : m = n
      · subst hmn
        by_cases hseen : m ∈ seen
        · have hstep : uniqueStep (seen, acc) d = (seen, acc) := by
            simp [uniqueStep, hdn, hseen]
          rw [hstep, ih]
          simp [hseen]
        · have hstep : uniqueStep (seen, acc) d = (seen ++ [m], acc ++ [d]) := by
            simp [uniqueStep, hdn, hn, hseen]
          have hfc : List.find? (fun d => d.name == some m) (d :: rest) = some d :=
            List.find?_cons_of_pos _ (by simp [hdn])
          rw [hstep, ih, hfc]
          simp [hseen, List.filter_append, hdn]
      · have hfc : List.find? (fun d => d.name == some n) (d :: rest)
            = List.find? (fun d => d.name == some n) rest :=
          List.find?_cons_of_neg _ (by simp [hdn, hmn])
        have hfd : (d.name == some n) = false := by simp [hdn, hmn]
        by_cases hcond : m ≠ "" ∧ m ∉ seen
        · have hstep : uniqueStep (seen, acc) d = (seen ++ [m], acc ++ [d]) := by
            simp [uniqueStep, hdn, hcond.1, hcond.2]
          rw [hstep, ih, hfc]
          have hmem : (n ∈ seen ++ [m]) ↔ n ∈ seen := by
            simp only [List.mem_append, List.mem_singleton]
            exact ⟨fun h => h.elim id (fun h => absurd h.symm hmn), Or.inl⟩
          by_cases hs2 : n ∈ seen
          · simp [List.filter_append, hfd, hmem.mpr hs2, hs2]
          · have hs3 : ¬ n ∈ seen ++ [m] := fun h => hs2 (hmem.mp h)
            simp [List.filter_append, hfd, hs2, hs3]
        · have hstep : uniqueStep (seen, acc) d = (seen, acc) := by
            simp only [uniqueStep, hdn]
            rw [if_neg hcond]
          rw [hstep, ih, hfc]

/-- Claim C9: for every non-empty name, the deduplicated list on which license
resolution is run retains exactly the first node with that name in input order
(and nothing else with that name), so resolution for the name runs exactly
once per repository. -/
theorem license_resolved_once_per_name (deps : List SbomPackage) (n : String)
    (hn : n ≠ "") :
    (uniqueDeps deps).filter (fun d => d.name == some n)
        = (deps.find? (fun d => d.name == some n)).toList ∧
      (∀ d, d ∈ deps → d.name = some n →
        ((uniqueDeps deps).filter (fun d => d.name == some n)).length = 1) := by
  have hmain :
      (uniqueDeps deps).filter (fun d => d.name == some n)
        = (deps.find? (fun d => d.name == some n)).toList := by
    have h := uniqueDeps_filter_aux n hn deps [] []
    simpa [uniqueDeps] using h
  refine ⟨hmain, fun d hd hdn => ?_⟩
  rw [hmain]
  have : ∃ x, x ∈ deps ∧ (fun d => d.name == some n) x = true :=
    ⟨d, hd, by simp [hdn]⟩
  rw [← List.find?_isSome] at this
  cases hfind : deps.find? (fun d => d.name == some n) with
  | none => rw [hfind] at this; simp at this
  | some x => simp

/-- Witness for C9: two nodes named `lodash` with different versions; only the
first is retained for resolution. -/
theorem license_resolved_once_per_name_witness :
    (uniqueDeps
        [{ SPDXID := some "p1", name := some "lodash", versionInfo := some "1.0.0",
           licenseConcluded := none },
         { SPDXID := some "p2", name := some "lodash", versionInfo := some "2.0.0",
           licenseConcluded := none }]).filter (fun d => d.name == some "lodash")
      = [{ SPDXID := some "p1", name := some "lodash", versionInfo := some "1.0.0",
           licenseConcluded := none }] := by
  have h :=
    (license_resolved_once_per_name
      [{ SPDXID := some "p1", name := some "lodash", versionInfo := some "1.0.0",
         licenseConcluded := none },
       { SPDXID := some "p2", name := some "lodash", versionInfo := some "2.0.0",
         licenseConcluded := none }] "lodash" (by decide)).1
  rw [h]
  rfl

/-- Claim C10: a dependency with no explicit license whose external lookup
succeeds but returns metadata without a license field resolves to an
undefined license (`none`), not the string `"Unknown"`, and classification
then changes neither store: the package is silently treated as compliant. -/
theorem undefined_license_treated_compliant (npm : NpmSource)
    (relMap : List (String × String)) (mainSpdxId : String) (dep : SbomPackage)
    (cfg : ScannerConfig) (repo : String)
    (acc : PackageDataMap × PackageDataMap × Bool)
    (h1 : truthy dep.licenseConcluded = false)
    (h2 : npm (dep.name.getD "") dep.versionInfo = some { license := none }) :
    (resolveDep npm relMap mainSpdxId dep).license = none ∧
      classifyStep cfg repo (resolveDep npm relMap mainSpdxId dep) acc = acc := by
  have hl : (resolveDep npm relMap mainSpdxId dep).license = none := by
    simp [resolveDep, resolveOutcomeFor, h1, resolveLicenseFromNPM, h2]
  exact ⟨hl, by simp [classifyStep, hl]⟩

theorem undefined_license_treated_compliant_witness :
    (resolveDep (fun _ _ => some { license := none }) [] ""
        { SPDXID := none, name := some "leftpad", versionInfo := some "1.0.0",
          licenseConcluded := none }).license = none ∧
      classifyStep ⟨["GPL-3.0"], []⟩ "repo-a"
          (resolveDep (fun _ _ => some { license := none }) [] ""
            { SPDXID := none, name := some "leftpad", versionInfo := some "1.0.0",
              licenseConcluded := none }) ([], [], false)
        = ([], [], false) :=
  undefined_license_treated_compliant (fun _ _ => some { license := none }) [] ""
    { SPDXID := none, name := some "leftpad", versionInfo := some "1.0.0",
      licenseConcluded := none }
    ⟨["GPL-3.0"], []⟩ "repo-a" ([], [], false) rfl rfl

theorem alookup_upsert {ν : Type _} (k : String) (d : ν) (f : ν → ν)
    (m : List (String × ν)) (q : String) :
    alookup (upsert k d f m) q
      = if k = q then some (f ((alookup m k).getD d)) else alookup m q := by
  induction m with
  | nil => by_cases h : k = q <;> simp [upsert, alookup, h]
  | cons kv rest ih =>
    obtain ⟨h, v⟩ := kv
    by_cases hh : h = k
    · subst hh
      by_cases hq : h = q
      · subst hq
        simp [upsert, alookup]
      · simp [upsert, alookup, hq, fun hkq : h = q => hq hkq]
    · by_cases hq : h = q
      · subst hq
        have hkq : ¬ k = h := fun he => hh he.symm
        simp [upsert, alookup, hh, hkq]
      · simp [upsert, alookup, hh, hq, ih]

/-- Inserting a package appends exactly one entry at its own
name/license/version path and changes no other path. -/
theorem entriesAt_insertPkgIntoMap (repo : String) (pkg : StorePackage)
    (m : PackageDataMap) (nm lic ver : String) :
    entriesAt (insertPkgIntoMap repo pkg m) nm lic ver
      = if pkg.name = nm ∧ pkg.license = lic ∧ pkg.version = ver
        then entriesAt m nm lic ver ++ [entryOf (repo, pkg)]
        else entriesAt m nm lic ver := by
  unfold entriesAt insertPkgIntoMap
  rw [alookup_upsert]
  by_cases h1 : pkg.name = nm
  · subst h1
    rw [if_pos rfl]
    simp only [Option.getD_some]
    rw [alookup_upsert]
    by_cases h2 : pkg.license = lic
    · subst h2
      rw [if_pos rfl]
      simp only [Option.getD_some]
      rw [alookup_upsert]
      by_cases h3 : pkg.version = ver
      · subst h3
        simp
      · rw [if_neg h3, if_neg (fun hc => h3 hc.2.2)]
    · rw [if_neg h2, if_neg (fun hc => h2 hc.2.1)]
  · rw [if_neg h1, if_neg (fun hc => h1 hc.1)]

/-- Claim C1 as stated is false on the code: with blacklist `["Unknown"]` and
a package whose resolved license is `"Unknown"` (hence both `"Unknown"` and a
blacklist member, matching no ignore regex), step [5d] leaves the blacklist
store empty and inserts into the missing-license store instead. -/
theorem blacklisted_unknown_goes_to_missing_store :
    (classifyPackages ⟨["Unknown"], []⟩ "repo-a"
        [{ name := "pkg-a", isTransitiveDep := false, version := "1.0.0",
           resolveMode := "explicit", license := some "Unknown" }]
        ([], [], false)).1 = []
    ∧ (classifyPackages ⟨["Unknown"], []⟩ "repo-a"
        [{ name := "pkg-a", isTransitiveDep := false, version := "1.0.0",
           resolveMode := "explicit", license := some "Unknown" }]
        ([], [], false)).2.1 ≠ [] := by
  exact ⟨rfl, by decide⟩

/-- Claim C1 (amended): for a resolved package matching no ignore regex,
step [5d] inserts into the missing-license store if its license is the literal
string `"Unknown"`, and only otherwise inserts into the blacklist store if its
license is a member of the blacklist; a package whose license is both
`"Unknown"` and blacklisted lands in the missing-license store. -/
theorem classify_checks_unknown_first (cfg : ScannerConfig) (repo : String)
    (pkg : PackageData) (acc : PackageDataMap × PackageDataMap × Bool)
    (hig : ignoredByRegex cfg pkg = false) :
    (pkg.license = some "Unknown" →
      (classifyPackages cfg repo [pkg] acc).1 = acc.1 ∧
        entriesAt (classifyPackages cfg repo [pkg] acc).2.1 pkg.name "Unknown" pkg.version
          = entriesAt acc.2.1 pkg.name "Unknown" pkg.version
              ++ [entryOf (repo, storePkg pkg "Unknown")]) ∧
    (∀ lic, pkg.license = some lic → lic ≠ "Unknown" → lic ∈ cfg.licenseBlacklist →
      (classifyPackages cfg repo [pkg] acc).2.1 = acc.2.1 ∧
        entriesAt (classifyPackages cfg repo [pkg] acc).1 pkg.name lic pkg.version
          = entriesAt acc.1 pkg.name lic pkg.version
              ++ [entryOf (repo, storePkg pkg lic)]) := by
  have hone : classifyPackages cfg repo [pkg] acc = classifyStep cfg repo pkg acc := by
    simp [classifyPackages, List.filter, hig]
  constructor
  · intro hu
    have hstep : classifyStep cfg repo pkg acc
        = (acc.1, insertPkgIntoMap repo (storePkg pkg "Unknown") acc.2.1, true) := by
      simp [classifyStep, hu]
    rw [hone, hstep]
    refine ⟨rfl, ?_⟩
    rw [entriesAt_insertPkgIntoMap]
    simp [storePkg]
  · intro lic hl hne hbl
    have hstep : classifyStep cfg repo pkg acc
        = (insertPkgIntoMap repo (storePkg pkg lic) acc.1, acc.2.1, true) := by
      simp [classifyStep, hl, hne, hbl]
    rw [hone, hstep]
    refine ⟨rfl, ?_⟩
    rw [entriesAt_insertPkgIntoMap]
    simp [storePkg]

theorem classify_checks_unknown_first_witness :
    ignoredByRegex ⟨["GPL-3.0"], []⟩
        { name := "pkg-a", isTransitiveDep := false, version := "1.0.0",
          resolveMode := "explicit", license := some "GPL-3.0" } = false ∧
      (classifyPackages ⟨["GPL-3.0"], []⟩ "repo-a"
          [{ name := "pkg-a", isTransitiveDep := false, version := "1.0.0",
             resolveMode := "explicit", license := some "GPL-3.0" }]
          ([], [], false)).2.1 = [] :=
  ⟨rfl,
    ((classify_checks_unknown_first ⟨["GPL-3.0"], []⟩ "repo-a"
        { name := "pkg-a", isTransitiveDep := false, version := "1.0.0",
          resolveMode := "explicit", license := some "GPL-3.0" }
        ([], [], false) rfl).2 "GPL-3.0" rfl (by decide) (by decide)).1⟩

/-- Claim C6: one classified package changes at most one of the two stores,
and a package matched by some ignore regex changes neither (nor the affected
flag). -/
theorem classify_at_most_one_store (cfg : ScannerConfig) (repo : String)
    (pkg : PackageData) (acc : PackageDataMap × PackageDataMap × Bool) :
    ((classifyStep cfg repo pkg acc).1 = acc.1
        ∨ (classifyStep cfg repo pkg acc).2.1 = acc.2.1) ∧
      (ignoredByRegex cfg pkg = true → classifyPackages cfg repo [pkg] acc = acc) := by
  constructor
  · cases hpl : pkg.license with
    | none => simp [classifyStep, hpl]
    | some lic =>
      by_cases h1 : lic = "Unknown"
      · exact Or.inl (by simp [classifyStep, hpl, h1])
      · by_cases h2 : lic ∈ cfg.licenseBlacklist
        · exact Or.inr (by simp [classifyStep, hpl, h1, h2])
        · exact Or.inl (by simp [classifyStep, hpl, h1, h2])
  · intro hig
    simp [classifyPackages, List.filter, hig]

theorem classify_at_most_one_store_witness :
    classifyPackages ⟨["GPL-3.0"], [fun nm => nm == "lodash"]⟩ "repo-a"
        [{ name := "lodash", isTransitiveDep := false, version := "1.0.0",
           resolveMode := "explicit", license := some "GPL-3.0" }]
        ([], [], false)
      = ([], [], false) :=
  (classify_at_most_one_store ⟨["GPL-3.0"], [fun nm => nm == "lodash"]⟩ "repo-a"
      { name := "lodash", isTransitiveDep := false, version := "1.0.0",
        resolveMode := "explicit", license := some "GPL-3.0" }
      ([], [], false)).2 rfl

theorem mem_collect {ν : Type _} (h : ν → List String) (m : List (String × ν))
    (r : String) :
    r ∈ m.foldr (fun kv acc => h kv.2 ++ acc) [] ↔ ∃ kv, kv ∈ m ∧ r ∈ h kv.2 := by
  induction m with
  | nil => simp
  | cons kv rest ih =>
    simp only [List.foldr_cons, List.mem_append, ih, List.mem_cons]
    constructor
    · rintro (hr | ⟨kv2, hm, hr⟩)
      · exact ⟨kv, Or.inl rfl, hr⟩
      · exact ⟨kv2, Or.inr hm, hr⟩
    · rintro ⟨kv2, hm | hm, hr⟩
      · subst hm; exact Or.inl hr
      · exact Or.inr ⟨kv2, hm, hr⟩

theorem mem_of_alookup_eq_some {ν : Type _} (m : List (String × ν)) (k : String)
    (v : ν) (h : alookup m k = some v) : (k, v) ∈ m := by
  induction m with
  | nil => simp [alookup] at h
  | cons p rest ih =>
    obtain ⟨k2, v2⟩ := p
    by_cases hk : k2 = k
    · subst hk
      simp [alookup] at h
      simp [h]
    · simp [alookup, hk] at h
      exact List.mem_cons_of_mem _ (ih h)

theorem mem_upsert {ν : Type _} (k : String) (d : ν) (f : ν → ν)
    (m : List (String × ν)) (kv : String × ν) (h : kv ∈ upsert k d f m) :
    kv ∈ m ∨ kv = (k, f ((alookup m k).getD d)) := by
  induction m with
  | nil =>
    simp [upsert] at h
    right
    simp [alookup, h]
  | cons p rest ih =>
    obtain ⟨k2, v⟩ := p
    by_cases hk : k2 = k
    · subst hk
      simp [upsert] at h
      rcases h with h | h
      · right
        simp [alookup, h]
      · exact Or.inl (List.mem_cons_of_mem _ h)
    · simp [upsert, hk] at h
      rcases h with h | h
      · exact Or.inl (by simp [h])
      · rcases ih h with h2 | h2
        · exact Or.inl (List.mem_cons_of_mem _ h2)
        · right
          rw [h2]
          simp [alookup, hk]

theorem mem_collect_upsert {ν : Type _} (h : ν → List String) (k : String) (d : ν)
    (f : ν → ν) (m : List (String × ν)) (r : String)
    (hr : r ∈ (upsert k d f m).foldr (fun kv acc => h kv.2 ++ acc) []) :
    r ∈ m.foldr (fun kv acc => h kv.2 ++ acc) []
      ∨ r ∈ h (f ((alookup m k).getD d)) := by
  rcases (mem_collect h (upsert k d f m) r).mp hr with ⟨kv, hm, hrk⟩
  rcases mem_upsert k d f m kv hm with h2 | h2
  · exact Or.inl ((mem_collect h m r).mpr ⟨kv, h2, hrk⟩)
  · right
    rw [h2] at hrk
    exact hrk

theorem mem_collect_getD {ν : Type _} (h : ν → List String) (m : List (String × ν))
    (k : String) (d : ν) (r : String) (hd : h d = [])
    (hr : r ∈ h ((alookup m k).getD d)) :
    r ∈ m.foldr (fun kv acc => h kv.2 ++ acc) [] := by
  cases hk : alookup m k with
  | none =>
    rw [hk] at hr
    simp [hd] at hr
  | some v =>
    rw [hk] at hr
    exact (mem_collect h m r).mpr ⟨(k, v), mem_of_alookup_eq_some m k v hk, hr⟩

/-- Any repository name present after an insertion was already present or is
the inserting repository. -/
theorem mem_reposInMap_insert (repo : String) (pkg : StorePackage)
    (m : PackageDataMap) (r : String)
    (hr : r ∈ reposInMap (insertPkgIntoMap repo pkg m)) :
    r ∈ reposInMap m ∨ r = repo := by
  rcases mem_collect_upsert reposOfLicenseMap pkg.name []
      (upsert pkg.license [] (upsert pkg.version []
        (fun entries => entries ++ [entryOf (repo, pkg)]))) m r hr with h1 | h1
  · exact Or.inl h1
  · rcases mem_collect_upsert reposOfVersionMap pkg.license []
        (upsert pkg.version [] (fun entries => entries ++ [entryOf (repo, pkg)]))
        ((alookup m pkg.name).getD []) r h1 with h2 | h2
    · exact Or.inl (mem_collect_getD reposOfLicenseMap m pkg.name [] r rfl h2)
    · rcases mem_collect_upsert reposOfEntries pkg.version []
          (fun entries => entries ++ [entryOf (repo, pkg)])
          ((alookup ((alookup m pkg.name).getD []) pkg.license).getD []) r h2 with h3 | h3
      · exact Or.inl (mem_collect_getD reposOfLicenseMap m pkg.name [] r rfl
          (mem_collect_getD reposOfVersionMap ((alookup m pkg.name).getD [])
            pkg.license [] r rfl h3))
      · have h4 : r ∈ reposOfEntries
            ((alookup ((alookup ((alookup m pkg.name).getD []) pkg.license).getD [])
              pkg.version).getD []) ∨ r = repo := by
          simpa [reposOfEntries, entryOf] using h3
        rcases h4 with h4 | h4
        · exact Or.inl (mem_collect_getD reposOfLicenseMap m pkg.name [] r rfl
            (mem_collect_getD reposOfVersionMap ((alookup m pkg.name).getD [])
              pkg.license [] r rfl
              (mem_collect_getD reposOfEntries
                ((alookup ((alookup m pkg.name).getD []) pkg.license).getD [])
                pkg.version [] r rfl h4)))
        · exact Or.inr h4

theorem mem_reposInMap_classifyStep (cfg : ScannerConfig) (repo : String)
    (pkg : PackageData) (acc : PackageDataMap × PackageDataMap × Bool) (r : String) :
    (r ∈ reposInMap (classifyStep cfg repo pkg acc).1
        → r ∈ reposInMap acc.1 ∨ r = repo) ∧
      (r ∈ reposInMap (classifyStep cfg repo pkg acc).2.1
        → r ∈ reposInMap acc.2.1 ∨ r = repo) := by
  cases hpl : pkg.license with
  | none =>
    have he : classifyStep cfg repo pkg acc = acc := by simp [classifyStep, hpl]
    rw [he]
    exact ⟨Or.inl, Or.inl⟩
  | some lic =>
    by_cases h1 : lic = "Unknown"
    · have he : classifyStep cfg repo pkg acc
          = (acc.1, insertPkgIntoMap repo (storePkg pkg lic) acc.2.1, true) := by
        simp [classifyStep, hpl, h1]
      rw [he]
      exact ⟨Or.inl, fun hr => mem_reposInMap_insert repo (storePkg pkg lic) acc.2.1 r hr⟩
    · by_cases h2 : lic ∈ cfg.licenseBlacklist
      · have he : classifyStep cfg repo pkg acc
            = (insertPkgIntoMap repo (storePkg pkg lic) acc.1, acc.2.1, true) := by
          simp [classifyStep, hpl, h1, h2]
        rw [he]
        exact ⟨fun hr => mem_reposInMap_insert repo (storePkg pkg lic) acc.1 r hr, Or.inl⟩
      · have he : classifyStep cfg repo pkg acc = acc := by
          simp [classifyStep, hpl, h1, h2]
        rw [he]
        exact ⟨Or.inl, Or.inl⟩

theorem mem_reposInMap_classifyFold (cfg : ScannerConfig) (repo : String)
    (pkgs : List PackageData) :
    ∀ (acc : PackageDataMap × PackageDataMap × Bool) (r : String),
      (r ∈ reposInMap (pkgs.foldl (fun acc pkg => classifyStep cfg repo pkg acc) acc).1
          → r ∈ reposInMap acc.1 ∨ r = repo) ∧
        (r ∈ reposInMap (pkgs.foldl (fun acc pkg => classifyStep cfg repo pkg acc) acc).2.1
          → r ∈ reposInMap acc.2.1 ∨ r = repo) := by
  induction pkgs with
  | nil => exact fun acc r => ⟨Or.inl, Or.inl⟩
  | cons p rest ih =>
    intro acc r
    rw [List.foldl_cons]
    constructor
    · intro hr
      rcases (ih (classifyStep cfg repo p acc) r).1 hr with h | h
      · exact (mem_reposInMap_classifyStep cfg repo p acc r).1 h
      · exact Or.inr h
    · intro hr
      rcases (ih (classifyStep cfg repo p acc) r).2 hr with h | h
      · exact (mem_reposInMap_classifyStep cfg repo p acc r).2 h
      · exact Or.inr h

theorem mem_reposInMap_processRepo (cfg : ScannerConfig) (nm : String)
    (outcome : RepoOutcome) (st : ScanState) (r : String) :
    (r ∈ reposInMap (processRepo cfg nm outcome st).blacklistMap
        → r ∈ reposInMap st.blacklistMap
          ∨ (r = nm ∧ ∃ pkgs, outcome = RepoOutcome.success pkgs)) ∧
      (r ∈ reposInMap (processRepo cfg nm outcome st).noLicenseMap
        → r ∈ reposInMap st.noLicenseMap
          ∨ (r = nm ∧ ∃ pkgs, outcome = RepoOutcome.success pkgs)) := by
  cases outcome with
  | fetchFailure => exact ⟨Or.inl, Or.inl⟩
  | processingFailure => exact ⟨Or.inl, Or.inl⟩
  | success pkgs =>
    have hbl : (processRepo cfg nm (RepoOutcome.success pkgs) st).blacklistMap
        = (classifyPackages cfg nm pkgs (st.blacklistMap, st.noLicenseMap, false)).1 := rfl
    have hnl : (processRepo cfg nm (RepoOutcome.success pkgs) st).noLicenseMap
        = (classifyPackages cfg nm pkgs (st.blacklistMap, st.noLicenseMap, false)).2.1 := rfl
    rw [hbl, hnl]
    constructor
    · intro hr
      rcases (mem_reposInMap_classifyFold cfg nm
          (pkgs.filter (fun pkg => !ignoredByRegex cfg pkg))
          (st.blacklistMap, st.noLicenseMap, false) r).1 hr with h | h
      · exact Or.inl h
      · exact Or.inr ⟨h, pkgs, rfl⟩
    · intro hr
      rcases (mem_reposInMap_classifyFold cfg nm
          (pkgs.filter (fun pkg => !ignoredByRegex cfg pkg))
          (st.blacklistMap, st.noLicenseMap, false) r).2 hr with h | h
      · exact Or.inl h
      · exact Or.inr ⟨h, pkgs, rfl⟩

theorem mem_reposInMap_runBatch (cfg : ScannerConfig)
    (batch : List (String × RepoOutcome)) :
    ∀ (st : ScanState) (r : String),
      (r ∈ reposInMap (runBatch cfg batch st).blacklistMap
          → r ∈ reposInMap st.blacklistMap
            ∨ ∃ pkgs, (r, RepoOutcome.success pkgs) ∈ batch) ∧
        (r ∈ reposInMap (runBatch cfg batch st).noLicenseMap
          → r ∈ reposInMap st.noLicenseMap
            ∨ ∃ pkgs, (r, RepoOutcome.success pkgs) ∈ batch) := by
  induction batch with
  | nil => exact fun st r => ⟨Or.inl, Or.inl⟩
  | cons job rest ih =>
    intro st r
    have hfold : runBatch cfg (job :: rest) st
        = runBatch cfg rest (processRepo cfg job.1 job.2 st) := rfl
    rw [hfold]
    have hlift : ∀ pkgs, job.2 = RepoOutcome.success pkgs → r = job.1
        → ∃ pkgs, (r, RepoOutcome.success pkgs) ∈ job :: rest := by
      intro pkgs hj hr
      refine ⟨pkgs, ?_⟩
      have : (r, RepoOutcome.success pkgs) = job := by
        rw [hr, ← hj]
      rw [this]
      exact List.mem_cons_self job rest
    constructor
    · intro hr
      rcases (ih (processRepo cfg job.1 job.2 st) r).1 hr with h | ⟨pkgs, h⟩
      · rcases (mem_reposInMap_processRepo cfg job.1 job.2 st r).1 h with h2 | ⟨hreq, pkgs, hj⟩
        · exact Or.inl h2
        · exact Or.inr (hlift pkgs hj hreq)
      · exact Or.inr ⟨pkgs, List.mem_cons_of_mem _ h⟩
    · intro hr
      rcases (ih (processRepo cfg job.1 job.2 st) r).2 hr with h | ⟨pkgs, h⟩
      · rcases (mem_reposInMap_processRepo cfg job.1 job.2 st r).2 h with h2 | ⟨hreq, pkgs, hj⟩
        · exact Or.inl h2
        · exact Or.inr (hlift pkgs hj hreq)
      · exact Or.inr ⟨pkgs, List.mem_cons_of_mem _ h⟩

theorem filter_length_split (l : List (String × RepoOutcome)) :
    (l.filter (fun j => isSuccessOutcome j.2)).length
        + (l.filter (fun j => !isSuccessOutcome j.2)).length = l.length := by
  induction l with
  | nil => rfl
  | cons a t iht =>
    by_cases h : isSuccessOutcome a.2 <;> simp [List.filter, h] <;> omega

theorem runBatch_counts (cfg : ScannerConfig) (batch : List (String × RepoOutcome)) :
    ∀ st : ScanState,
      (runBatch cfg batch st).nScanned
          = st.nScanned + (batch.filter (fun j => isSuccessOutcome j.2)).length ∧
        (runBatch cfg batch st).nFailed
          = st.nFailed + (batch.filter (fun j => !isSuccessOutcome j.2)).length := by
  induction batch with
  | nil => intro st; exact ⟨rfl, rfl⟩
  | cons job rest ih =>
    intro st
    have hfold : runBatch cfg (job :: rest) st
        = runBatch cfg rest (processRepo cfg job.1 job.2 st) := rfl
    rw [hfold]
    obtain ⟨hs, hf⟩ := ih (processRepo cfg job.1 job.2 st)
    rw [hs, hf]
    cases hj : job.2 with
    | fetchFailure =>
      have h1 : (processRepo cfg job.1 RepoOutcome.fetchFailure st).nScanned
          = st.nScanned := rfl
      have h2 : (processRepo cfg job.1 RepoOutcome.fetchFailure st).nFailed
          = st.nFailed + 1 := rfl
      rw [h1, h2]
      simp [List.filter, hj, isSuccessOutcome]
      omega
    | processingFailure =>
      have h1 : (processRepo cfg job.1 RepoOutcome.processingFailure st).nScanned
          = st.nScanned := rfl
      have h2 : (processRepo cfg job.1 RepoOutcome.processingFailure st).nFailed
          = st.nFailed + 1 := rfl
      rw [h1, h2]
      simp [List.filter, hj, isSuccessOutcome]
      omega
    | success pkgs =>
      have h1 : (processRepo cfg job.1 (RepoOutcome.success pkgs) st).nScanned
          = st.nScanned + 1 := rfl
      have h2 : (processRepo cfg job.1 (RepoOutcome.success pkgs) st).nFailed
          = st.nFailed := rfl
      rw [h1, h2]
      simp [List.filter, hj, isSuccessOutcome]
      omega

/-- Claim C8: per batch, successes bump the scanned counter and failures bump
only the failed counter, every submitted unit settles (the two counters
account for the whole batch), and a repository that was not a success
contributes no entry to either store. -/
theorem scheduler_isolates_failures (cfg : ScannerConfig)
    (batch : List (String × RepoOutcome)) (st : ScanState) :
    (runBatch cfg batch st).nScanned
        = st.nScanned + (batch.filter (fun j => isSuccessOutcome j.2)).length ∧
      (runBatch cfg batch st).nFailed
        = st.nFailed + (batch.filter (fun j => !isSuccessOutcome j.2)).length ∧
      (runBatch cfg batch st).nScanned + (runBatch cfg batch st).nFailed
        = st.nScanned + st.nFailed + batch.length ∧
      (∀ r, r ∈ reposInMap (runBatch cfg batch st).blacklistMap
        → r ∈ reposInMap st.blacklistMap
          ∨ ∃ pkgs, (r, RepoOutcome.success pkgs) ∈ batch) ∧
      (∀ r, r ∈ reposInMap (runBatch cfg batch st).noLicenseMap
        → r ∈ reposInMap st.noLicenseMap
          ∨ ∃ pkgs, (r, RepoOutcome.success pkgs) ∈ batch) := by
  obtain ⟨hs, hf⟩ := runBatch_counts cfg batch st
  have hsplit := filter_length_split batch
  refine ⟨hs, hf, by omega, ?_, ?_⟩
  · exact fun r => (mem_reposInMap_runBatch cfg batch st r).1
  · exact fun r => (mem_reposInMap_runBatch cfg batch st r).2

theorem alookup_eq_some_of_mem_nodup {ν : Type _} (m : List (String × ν))
    (hm : (m.map Prod.fst).Nodup) (kv : String × ν) (h : kv ∈ m) :
    alookup m kv.1 = some kv.2 := by
  induction m with
  | nil => simp at h
  | cons p rest ih =>
    obtain ⟨k2, v⟩ := p
    have hm2 : k2 ∉ rest.map Prod.fst ∧ (rest.map Prod.fst).Nodup :=
      List.nodup_cons.mp (by simpa using hm)
    rcases List.mem_cons.mp h with h | h
    · rw [h]
      simp [alookup]
    · have hk : ¬ k2 = kv.1 := by
        intro he
        have hmem : kv.1 ∈ rest.map Prod.fst := List.mem_map_of_mem Prod.fst h
        rw [← he] at hmem
        exact hm2.1 hmem
      simp only [alookup, if_neg hk]
      exact ih hm2.2 h

theorem keys_upsert {ν : Type _} (k : String) (d : ν) (f : ν → ν)
    (m : List (String × ν)) :
    (upsert k d f m).map Prod.fst
      = if k ∈ m.map Prod.fst then m.map Prod.fst else m.map Prod.fst ++ [k] := by
  induction m with
  | nil => simp [upsert]
  | cons p rest ih =>
    obtain ⟨k2, v⟩ := p
    by_cases hk : k2 = k
    · subst hk
      simp [upsert]
    · have hk2 : ¬ k = k2 := fun h => hk h.symm
      by_cases hm : k ∈ rest.map Prod.fst
      · simp [upsert, hk, hk2, ih, hm]
      · simp [upsert, hk, hk2, ih, hm]

theorem nodup_keys_upsert {ν : Type _} (k : String) (d : ν) (f : ν → ν)
    (m : List (String × ν)) (hm : (m.map Prod.fst).Nodup) :
    ((upsert k d f m).map Prod.fst).Nodup := by
  rw [keys_upsert]
  by_cases hk : k ∈ m.map Prod.fst
  · simpa [hk] using hm
  · rw [if_neg hk]
    simp [List.nodup_append, hm, hk]

theorem nodup_keys_foldl_upsert {τ ν : Type _} (key : τ → String) (d : ν)
    (step : τ → ν → ν) (l : List τ) :
    ∀ m : List (String × ν), (m.map Prod.fst).Nodup
      → (((l.foldl (fun m t => upsert (key t) d (step t) m) m)).map Prod.fst).Nodup := by
  induction l with
  | nil => exact fun m hm => hm
  | cons t rest ih =>
    intro m hm
    rw [List.foldl_cons]
    exact ih _ (nodup_keys_upsert _ _ _ _ hm)

theorem nodup_keys_buildAL {τ ν : Type _} (key : τ → String) (d : ν)
    (step : τ → ν → ν) (l : List τ) :
    ((buildAL key d step l).map Prod.fst).Nodup :=
  nodup_keys_foldl_upsert key d step l [] (by simp)

theorem alookup_foldl_upsert_some {τ ν : Type _} (key : τ → String) (d : ν)
    (step : τ → ν → ν) (l : List τ) :
    ∀ (m : List (String × ν)) (k : String) (v : ν), alookup m k = some v →
      alookup (l.foldl (fun m t => upsert (key t) d (step t) m) m) k
        = some ((l.filter (fun t => key t == k)).foldl (fun v t => step t v) v) := by
  induction l with
  | nil =>
    intro m k v h
    simpa using h
  | cons t rest ih =>
    intro m k v h
    rw [List.foldl_cons]
    by_cases hk : key t = k
    · have h2 : alookup (upsert (key t) d (step t) m) k = some (step t v) := by
        rw [alookup_upsert, if_pos hk, hk, h]
        rfl
      rw [ih _ _ _ h2]
      have hf : (t :: rest).filter (fun t => key t == k)
          = t :: rest.filter (fun t => key t == k) := by
        simp [List.filter_cons, hk]
      rw [hf, List.foldl_cons]
    · have h2 : alookup (upsert (key t) d (step t) m) k = some v := by
        rw [alookup_upsert, if_neg hk]
        exact h
      rw [ih _ _ _ h2]
      have hf : (t :: rest).filter (fun t => key t == k)
          = rest.filter (fun t => key t == k) := by
        simp [List.filter_cons, hk]
      rw [hf]

theorem alookup_foldl_upsert_none {τ ν : Type _} (key : τ → String) (d : ν)
    (step : τ → ν → ν) (l : List τ) :
    ∀ (m : List (String × ν)) (k : String), alookup m k = none →
      alookup (l.foldl (fun m t => upsert (key t) d (step t) m) m) k
        = if (l.filter (fun t => key t == k)).isEmpty then none
          else some ((l.filter (fun t => key t == k)).foldl (fun v t => step t v) d) := by
  induction l with
  | nil =>
    intro m k h
    simpa using h
  | cons t rest ih =>
    intro m k h
    rw [List.foldl_cons]
    by_cases hk : key t = k
    · have h2 : alookup (upsert (key t) d (step t) m) k = some (step t d) := by
        rw [alookup_upsert, if_pos hk, hk, h]
        rfl
      rw [alookup_foldl_upsert_some key d step rest _ _ _ h2]
      have hf : (t :: rest).filter (fun t => key t == k)
          = t :: rest.filter (fun t => key t == k) := by
        simp [List.filter_cons, hk]
      rw [hf]
      simp
    · have h2 : alookup (upsert (key t) d (step t) m) k = none := by
        rw [alookup_upsert, if_neg hk]
        exact h
      rw [ih _ _ h2]
      have hf : (t :: rest).filter (fun t => key t == k)
          = rest.filter (fun t => key t == k) := by
        simp [List.filter_cons, hk]
      rw [hf]

theorem alookup_buildAL {τ ν : Type _} (key : τ → String) (d : ν)
    (step : τ → ν → ν) (l : List τ) (k : String) :
    alookup (buildAL key d step l) k
      = if (l.filter (fun t => key t == k)).isEmpty then none
        else some ((l.filter (fun t => key t == k)).foldl (fun v t => step t v) d) :=
  alookup_foldl_upsert_none key d step l [] k rfl

/-- Two key-sorted lists that are permutations of each other and have
pairwise-distinct keys are equal. -/
theorem eq_of_perm_of_sorted_key {α : Type _} (key : α → String) :
    ∀ l₁ l₂ : List α, l₁.Perm l₂
      → l₁.Sorted (fun a b => key a ≤ key b) → l₂.Sorted (fun a b => key a ≤ key b)
      → (l₁.map key).Nodup → l₁ = l₂ := by
  intro l₁
  induction l₁ with
  | nil =>
    intro l₂ hp _ _ _
    exact (List.Perm.eq_nil hp.symm).symm
  | cons a t ih =>
    intro l₂ hp hs₁ hs₂ hnd
    cases l₂ with
    | nil => exact absurd (List.Perm.eq_nil hp) (by simp)
    | cons b t₂ =>
      have hnd2 : key a ∉ t.map key ∧ (t.map key).Nodup :=
        List.nodup_cons.mp (by simpa using hnd)
      have hab : a = b := by
        have ha2 : a ∈ b :: t₂ := hp.mem_iff.mp (List.mem_cons_self a t)
        rcases List.mem_cons.mp ha2 with h | ha3
        · exact h
        · have hb1 : b ∈ a :: t := hp.mem_iff.mpr (List.mem_cons_self b t₂)
          rcases List.mem_cons.mp hb1 with h | hb2
          · exact h.symm
          · have h1 : key a ≤ key b := (List.sorted_cons.mp hs₁).1 b hb2
            have h2 : key b ≤ key a := (List.sorted_cons.mp hs₂).1 a ha3
            have heq : key a = key b := le_antisymm h1 h2
            have hmem : key b ∈ t.map key := List.mem_map_of_mem key hb2
            rw [← heq] at hmem
            exact absurd hmem hnd2.1
      subst hab
      have ht : t.Perm t₂ := hp.cons_inv
      rw [ih t₂ ht (List.sorted_cons.mp hs₁).2 (List.sorted_cons.mp hs₂).2 hnd2.2]

theorem insertionSort_eq_of_perm_key {α : Type _} (key : α → String)
    (dec : DecidableRel (fun a b : α => key a ≤ key b))
    (l₁ l₂ : List α) (hp : l₁.Perm l₂) (hnd : (l₁.map key).Nodup) :
    List.insertionSort (fun a b => key a ≤ key b) l₁
      = List.insertionSort (fun a b => key a ≤ key b) l₂ := by
  haveI : IsTotal α (fun a b => key a ≤ key b) := ⟨fun a b => le_total (key a) (key b)⟩
  haveI : IsTrans α (fun a b => key a ≤ key b) := ⟨fun a b c h1 h2 => le_trans h1 h2⟩
  apply eq_of_perm_of_sorted_key key
  · exact (List.perm_insertionSort _ l₁).trans (hp.trans (List.perm_insertionSort _ l₂).symm)
  · exact List.sorted_insertionSort _ l₁
  · exact List.sorted_insertionSort _ l₂
  · have hperm : List.Perm ((List.insertionSort (fun a b => key a ≤ key b) l₁).map key)
        (l₁.map key) :=
      (List.perm_insertionSort _ l₁).map key
    exact hperm.nodup_iff.mpr hnd

theorem foldl_push_eq_map {τ α : Type _} (f : τ → α) (l : List τ) :
    ∀ acc : List α, l.foldl (fun es t => es ++ [f t]) acc = acc ++ l.map f := by
  induction l with
  | nil =>
    intro acc
    simp
  | cons t rest ih =>
    intro acc
    rw [List.foldl_cons, ih]
    simp

/-- One direction of: the serialized entries of a built map are determined by
the per-key folded content. -/
theorem mem_map_buildAL_mono {τ ν ν' : Type _} (key : τ → String) (d : ν)
    (step : τ → ν → ν) (g : String → ν → ν')
    (l₁ l₂ : List τ) (hp : l₁.Perm l₂)
    (hg : ∀ k, g k ((l₁.filter (fun t => key t == k)).foldl (fun v t => step t v) d)
        = g k ((l₂.filter (fun t => key t == k)).foldl (fun v t => step t v) d))
    (x : ν') (hx : x ∈ (buildAL key d step l₁).map (fun kv => g kv.1 kv.2)) :
    x ∈ (buildAL key d step l₂).map (fun kv => g kv.1 kv.2) := by
  rcases List.mem_map.mp hx with ⟨kv, hkv, hge⟩
  obtain ⟨k, v⟩ := kv
  have hlk : alookup (buildAL key d step l₁) k = some v :=
    alookup_eq_some_of_mem_nodup _ (nodup_keys_buildAL key d step l₁) (k, v) hkv
  rw [alookup_buildAL] at hlk
  by_cases he : (l₁.filter (fun t => key t == k)).isEmpty
  · rw [if_pos he] at hlk
    exact absurd hlk (by simp)
  · rw [if_neg he] at hlk
    have hv : v = (l₁.filter (fun t => key t == k)).foldl (fun v t => step t v) d :=
      (Option.some.inj hlk).symm
    have hpf : List.Perm (l₁.filter (fun t => key t == k))
        (l₂.filter (fun t => key t == k)) := hp.filter _
    have he₂ : ¬ (l₂.filter (fun t => key t == k)).isEmpty = true := by
      intro he₂
      apply he
      rw [List.isEmpty_iff] at he₂ ⊢
      exact List.Perm.eq_nil (he₂ ▸ hpf)
    have hlk₂ : alookup (buildAL key d step l₂) k
        = some ((l₂.filter (fun t => key t == k)).foldl (fun v t => step t v) d) := by
      rw [alookup_buildAL, if_neg he₂]
    have hmem₂ : (k, (l₂.filter (fun t => key t == k)).foldl (fun v t => step t v) d)
        ∈ buildAL key d step l₂ := mem_of_alookup_eq_some _ _ _ hlk₂
    apply List.mem_map.mpr
    refine ⟨_, hmem₂, ?_⟩
    show g k ((l₂.filter (fun t => key t == k)).foldl (fun v t => step t v) d) = x
    rw [← hg k, ← hv]
    exact hge

/-- The generic shape shared by the three levels of `arraifyMap`: sorting the
wrapped entries of a map built by `upsert`-folding is invariant under
permuting the inserted items, provided the wrapped content of each key is. -/
theorem insertionSort_map_buildAL_eq {τ ν ν' : Type _} (key : τ → String) (d : ν)
    (step : τ → ν → ν) (g : String → ν → ν') (keyOf : ν' → String)
    (dec : DecidableRel (fun a b : ν' => keyOf a ≤ keyOf b))
    (hkey : ∀ k v, keyOf (g k v) = k)
    (l₁ l₂ : List τ) (hp : l₁.Perm l₂)
    (hg : ∀ (k : String) (s₁ s₂ : List τ), s₁.Perm s₂ → s₁.Sublist l₁ → s₂.Sublist l₂
      → (∀ t ∈ s₁, key t = k)
      → g k (s₁.foldl (fun v t => step t v) d) = g k (s₂.foldl (fun v t => step t v) d)) :
    List.insertionSort (fun a b => keyOf a ≤ keyOf b)
        ((buildAL key d step l₁).map (fun kv => g kv.1 kv.2))
      = List.insertionSort (fun a b => keyOf a ≤ keyOf b)
          ((buildAL key d step l₂).map (fun kv => g kv.1 kv.2)) := by
  have hgf : ∀ k, g k ((l₁.filter (fun t => key t == k)).foldl (fun v t => step t v) d)
      = g k ((l₂.filter (fun t => key t == k)).foldl (fun v t => step t v) d) := by
    intro k
    exact hg k _ _ (hp.filter _) (List.filter_sublist l₁) (List.filter_sublist l₂)
      (fun t ht => by simpa using (List.mem_filter.mp ht).2)
  have hmapkey : ∀ l : List τ,
      (((buildAL key d step l).map (fun kv => g kv.1 kv.2)).map keyOf)
        = (buildAL key d step l).map Prod.fst := by
    intro l
    rw [List.map_map]
    have hfun : (keyOf ∘ fun kv : String × ν => g kv.1 kv.2)
        = (Prod.fst : String × ν → String) := by
      funext kv
      exact hkey kv.1 kv.2
    rw [hfun]
  have hnd₁ : (((buildAL key d step l₁).map (fun kv => g kv.1 kv.2)).map keyOf).Nodup := by
    rw [hmapkey]
    exact nodup_keys_buildAL key d step l₁
  have hnd₂ : (((buildAL key d step l₂).map (fun kv => g kv.1 kv.2)).map keyOf).Nodup := by
    rw [hmapkey]
    exact nodup_keys_buildAL key d step l₂
  have hperm : List.Perm ((buildAL key d step l₁).map (fun kv => g kv.1 kv.2))
      ((buildAL key d step l₂).map (fun kv => g kv.1 kv.2)) := by
    rw [List.perm_ext_iff_of_nodup (List.Nodup.of_map keyOf hnd₁)
      (List.Nodup.of_map keyOf hnd₂)]
    intro x
    constructor
    · exact fun hx => mem_map_buildAL_mono key d step g l₁ l₂ hp hgf x hx
    · exact fun hx =>
        mem_map_buildAL_mono key d step g l₂ l₁ hp.symm (fun k => (hgf k).symm) x hx
  exact insertionSort_eq_of_perm_key keyOf dec _ _ hperm hnd₁

theorem buildMap_eq_buildAL (l : List (String × StorePackage)) :
    buildMap l = buildAL (fun t => t.2.name) [] insLicense l := rfl

/-- Claim C2: serialization of the aggregation store is order-independent:
for tuples whose (name, license, version, repo) combinations are pairwise
distinct, inserting them in any order and then serializing yields the same
output, with names, licenses and versions sorted lexicographically and each
innermost list sorted by repository name. -/
theorem arraifyMap_order_independent (l₁ l₂ : List (String × StorePackage))
    (hq : l₁.Pairwise (fun a b => quadOf a ≠ quadOf b)) (hp : l₁.Perm l₂) :
    arraifyMap (buildMap l₁) = arraifyMap (buildMap l₂) := by
  rw [buildMap_eq_buildAL, buildMap_eq_buildAL]
  unfold arraifyMap
  apply insertionSort_map_buildAL_eq (fun t : String × StorePackage => t.2.name) []
    insLicense arraifyName (fun ng => ng.name)
    (fun a b => inferInstanceAs (Decidable (a.name ≤ b.name)))
    (fun k v => rfl) l₁ l₂ hp
  intro n s₁ s₂ hperm₁ hsub₁ hsub₂ hks₁
  show arraifyName n (buildAL (fun t => t.2.license) [] insVersion s₁)
      = arraifyName n (buildAL (fun t => t.2.license) [] insVersion s₂)
  unfold arraifyName
  congr 1
  apply insertionSort_map_buildAL_eq (fun t : String × StorePackage => t.2.license) []
    insVersion arraifyLicense (fun lg => lg.license)
    (fun a b => inferInstanceAs (Decidable (a.license ≤ b.license)))
    (fun k v => rfl) s₁ s₂ hperm₁
  intro lic u₁ u₂ hperm₂ hsubu₁ hsubu₂ hku₁
  show arraifyLicense lic (buildAL (fun t => t.2.version) [] pushEntry u₁)
      = arraifyLicense lic (buildAL (fun t => t.2.version) [] pushEntry u₂)
  unfold arraifyLicense
  congr 1
  apply insertionSort_map_buildAL_eq (fun t : String × StorePackage => t.2.version) []
    pushEntry arraifyVersion (fun vg => vg.version)
    (fun a b => inferInstanceAs (Decidable (a.version ≤ b.version)))
    (fun k v => rfl) u₁ u₂ hperm₂
  intro ver w₁ w₂ hperm₃ hsubw₁ hsubw₂ hkw₁
  show arraifyVersion ver (w₁.foldl (fun v t => pushEntry t v) [])
      = arraifyVersion ver (w₂.foldl (fun v t => pushEntry t v) [])
  have hm₁ : w₁.foldl (fun v t => pushEntry t v) [] = w₁.map entryOf := by
    simpa using foldl_push_eq_map entryOf w₁ []
  have hm₂ : w₂.foldl (fun v t => pushEntry t v) [] = w₂.map entryOf := by
    simpa using foldl_push_eq_map entryOf w₂ []
  unfold arraifyVersion
  congr 1
  rw [hm₁, hm₂]
  have hsubl : w₁.Sublist l₁ := ((hsubw₁.trans hsubu₁).trans hsub₁)
  have hpw : w₁.Pairwise (fun a b => quadOf a ≠ quadOf b) :=
    List.Pairwise.sublist hsubl hq
  have hpr : w₁.Pairwise (fun a b : String × StorePackage => a.1 ≠ b.1) := by
    refine List.Pairwise.imp_of_mem ?_ hpw
    intro a b ha hb hqd heq
    apply hqd
    have hna : a.2.name = n := hks₁ a ((hsubw₁.trans hsubu₁).subset ha)
    have hnb : b.2.name = n := hks₁ b ((hsubw₁.trans hsubu₁).subset hb)
    have hla : a.2.license = lic := hku₁ a (hsubw₁.subset ha)
    have hlb : b.2.license = lic := hku₁ b (hsubw₁.subset hb)
    have hva : a.2.version = ver := hkw₁ a ha
    have hvb : b.2.version = ver := hkw₁ b hb
    unfold quadOf
    rw [hna, hnb, hla, hlb, hva, hvb, heq]
  have hndr : ((w₁.map entryOf).map (fun e : MappedPackageData => e.repo)).Nodup := by
    rw [List.map_map]
    have hfun : ((fun e : MappedPackageData => e.repo) ∘ entryOf)
        = (fun t : String × StorePackage => t.1) := rfl
    rw [hfun]
    have hiff : (w₁.map (fun t : String × StorePackage => t.1)).Nodup ↔
        w₁.Pairwise (fun a b => a.1 ≠ b.1) := by
      unfold List.Nodup
      rw [List.pairwise_map]
    exact hiff.mpr hpr
  exact insertionSort_eq_of_perm_key (fun e : MappedPackageData => e.repo)
    (fun a b => inferInstanceAs (Decidable (a.repo ≤ b.repo)))
    _ _ (hperm₃.map entryOf) hndr

theorem arraifyMap_order_independent_witness :
    arraifyMap (buildMap
        [("r2", { name := "a", isTransitiveDep := false, version := "1",
                  resolveMode := "explicit", license := "MIT" }),
         ("r1", { name := "a", isTransitiveDep := true, version := "1",
                  resolveMode := "failed", license := "MIT" })])
      = arraifyMap (buildMap
        [("r1", { name := "a", isTransitiveDep := true, version := "1",
                  resolveMode := "failed", license := "MIT" }),
         ("r2", { name := "a", isTransitiveDep := false, version := "1",
                  resolveMode := "explicit", license := "MIT" })]) :=
  arraifyMap_order_independent _ _ (by decide) (by decide)

theorem scheduler_isolates_failures_witness :
    "alpha" ∈ reposInMap (ScanState.mk 0 0 0 [] []).blacklistMap
      ∨ ∃ pkgs, ("alpha", RepoOutcome.success pkgs)
          ∈ [("alpha", RepoOutcome.success
                [{ name := "left", isTransitiveDep := false, version := "1.0.0",
                   resolveMode := "explicit", license := some "GPL-3.0" }]),
             ("beta", RepoOutcome.fetchFailure)] :=
  (scheduler_isolates_failures ⟨["GPL-3.0"], []⟩
      [("alpha", RepoOutcome.success
          [{ name := "left", isTransitiveDep := false, version := "1.0.0",
             resolveMode := "explicit", license := some "GPL-3.0" }]),
       ("beta", RepoOutcome.fetchFailure)]
      (ScanState.mk 0 0 0 [] [])).2.2.2.1 "alpha" (by decide)

end OrgLicenseScanner
